import Mathlib

/-!
Shallow embedding of the VexCL core (vexcl/util.hpp and the device-vector
header) together with proofs about the properties stated in the
specification.  Machine `uint` arithmetic is modelled on `Nat` with an
explicit reduction modulo `2 ^ 32` at every operation of the source that
can overflow.
-/

set_option autoImplicit false

namespace VexCL

/-- Modulus of the C++ `unsigned int` type used throughout util.hpp. -/
def U32 : Nat := 4294967296

/-- Embedding of `alignup` (util.hpp): `return n % m ? n - n % m + m : n;`
computed in `uint` arithmetic, so the addition wraps modulo `2 ^ 32`. -/
def alignup (n m : Nat) : Nat :=
  if n % m ≠ 0 then (n - n % m + m) % U32 else n

/-- Embedding of the partition loop of `partition_equally` (util.hpp):
`for(uint i = 0, chunk_size = ...; i < m; i++) part[i + 1] = std::min(n, part[i] + chunk_size);`.
`prev` is `part[i]`; the addition is `uint` addition, hence the modulus. -/
def peLoop (n chunk : Nat) : Nat → Nat → List Nat
  | _, 0 => []
  | prev, k + 1 =>
      min n ((prev + chunk) % U32) ::
        peLoop n chunk (min n ((prev + chunk) % U32)) k

/-- Embedding of `partition_equally` (util.hpp).  `D` is `queue.size()`
truncated to `uint`.  The table starts with `part[0] = 0`; for more than one
device the loop above fills the rest with
`chunk_size = alignup((n + m - 1) / m)` (default alignment 16, and the sum
`n + m - 1` is `uint` arithmetic); otherwise `part.back() = n` (which for
`D = 0` overwrites the single entry `part[0]`). -/
def partition_equally (n D : Nat) : List Nat :=
  if 1 < D then
    0 :: peLoop n (alignup (((n + D - 1) % U32) / D) 16) 0 D
  else if D = 0 then [n] else [0, n]

/-- State of the `partitioning_scheme` singleton (util.hpp): the static
flag `is_set` and the static stored function `pfun` (empty before first
assignment).  The stored function type is kept abstract as `α`. -/
structure PScheme (α : Type) where
  is_set : Bool
  pfun : Option α
deriving DecidableEq

/-- Initial state of the singleton: `is_set = false`, `pfun` empty. -/
def pschemeInit (α : Type) : PScheme α := ⟨false, none⟩

/-- Embedding of `partitioning_scheme::set`: installs `f` when no policy is
active, otherwise prints a warning (the returned `Bool`) and leaves the
state unchanged. -/
def pschemeSet {α : Type} (f : α) (s : PScheme α) : PScheme α × Bool :=
  if s.is_set = false then (⟨true, some f⟩, false) else (s, true)

/-- Embedding of `partitioning_scheme::operator()`: on first use installs
the default policy `dflt` (`partition_by_vector_perf`, declared in
util.hpp but defined outside the core), then applies the stored function;
returns the new state and the policy that was applied. -/
def pschemeCall {α : Type} (dflt : α) (s : PScheme α) : PScheme α × α :=
  if s.is_set = false then (⟨true, some dflt⟩, dflt)
  else (s, s.pfun.getD dflt)

/-- Embedding of the inner loop of `kernel_workgroup_size` (util.hpp):
`while(wgsz > dev_wgsz) wgsz /= 2;`. -/
def halveUntil (w d : Nat) : Nat :=
  if h : d < w then halveUntil (w / 2) d else w
termination_by w
decreasing_by exact Nat.div_lt_self (by omega) (by omega)

/-- Embedding of `kernel_workgroup_size` (util.hpp): start from 1024 and
run the halving loop once per device, `devs` being the per-device values of
`CL_KERNEL_WORK_GROUP_SIZE` for the kernel. -/
def kernel_workgroup_size (devs : List Nat) : Nat :=
  devs.foldl halveUntil 1024

/-! ### Lemmas about the partition loop -/

theorem peLoop_length (n chunk : Nat) : ∀ (k prev : Nat), (peLoop n chunk prev k).length = k := by
  intro k
  induction k with
  | zero => intro prev; rfl
  | succ k ih => intro prev; simp [peLoop, ih]

theorem peLoop_getD (n chunk : Nat) (hov : n + chunk < U32) :
    ∀ (k i j : Nat), j < k →
      (peLoop n chunk (min n (i * chunk)) k).getD j 0 = min n ((i + j + 1) * chunk) := by
  intro k
  induction k with
  | zero => intro i j hj; exact absurd hj (Nat.not_lt_zero j)
  | succ k ih =>
    intro i j hj
    have hle : min n (i * chunk) ≤ n := Nat.min_le_left _ _
    have hmod : (min n (i * chunk) + chunk) % U32 = min n (i * chunk) + chunk :=
      Nat.mod_eq_of_lt (by omega)
    have hstep : min n ((min n (i * chunk) + chunk) % U32) = min n ((i + 1) * chunk) := by
      rw [hmod, Nat.succ_mul]
      omega
    cases j with
    | zero =>
      simp only [peLoop, List.getD_cons_zero, hstep, Nat.add_zero]
    | succ j =>
      simp only [peLoop, List.getD_cons_succ, hstep]
      have h := ih (i + 1) j (by omega)
      rw [show i + (j + 1) + 1 = i + 1 + j + 1 by omega]
      exact h

theorem peLoop_getD_zero (n chunk : Nat) (hov : n + chunk < U32) (k j : Nat) (hj : j < k) :
    (peLoop n chunk 0 k).getD j 0 = min n ((j + 1) * chunk) := by
  have h := peLoop_getD n chunk hov k 0 j hj
  simpa using h

theorem alignup_ge (x : Nat) (h : x + 16 < U32) : x ≤ alignup x 16 := by
  unfold alignup
  split
  · have h1 : x % 16 < 16 := Nat.mod_lt x (by omega)
    have h2 : x % 16 ≤ x := Nat.mod_le x 16
    rw [Nat.mod_eq_of_lt (by omega)]
    omega
  · exact Nat.le_refl x

theorem partition_equally_getD (n D : Nat) (hD : 1 < D) (hnd : n + D - 1 < U32)
    (hov : n + alignup ((n + D - 1) / D) 16 < U32) :
    ∀ i, i ≤ D → (partition_equally n D).getD i 0 =
      min n (i * alignup ((n + D - 1) / D) 16) := by
  intro i hi
  unfold partition_equally
  rw [if_pos hD, Nat.mod_eq_of_lt hnd]
  cases i with
  | zero => simp
  | succ i =>
    rw [List.getD_cons_succ]
    exact peLoop_getD_zero n _ hov D i (by omega)

/-- C1 (amended): for `D ≥ 1`, provided the `uint` computations
`n + D - 1`, the alignment round-up, and `part[i] + chunk_size` do not
overflow `2 ^ 32`, `partition_equally` returns `D + 1` non-decreasing
offsets starting at 0 and ending at `n`; for `D = 1` the table is exactly
`[0, n]`, and for `D > 1` each entry obeys
`part[i+1] = min n (part[i] + alignup ((n + D - 1) / D) 16)`. -/
theorem partition_equally_correct (n D : Nat) (hD : 1 ≤ D) (hnd : n + D - 1 < U32)
    (hn16 : n + 16 < U32) (hov : n + alignup ((n + D - 1) / D) 16 < U32) :
    (partition_equally n D).length = D + 1 ∧
    (partition_equally n D).getD 0 0 = 0 ∧
    (∀ i, i < D →
      (partition_equally n D).getD i 0 ≤ (partition_equally n D).getD (i + 1) 0) ∧
    (partition_equally n D).getD D 0 = n ∧
    (D = 1 → partition_equally n D = [0, n]) ∧
    (1 < D → ∀ i, i < D →
      (partition_equally n D).getD (i + 1) 0 =
        min n ((partition_equally n D).getD i 0 + alignup ((n + D - 1) / D) 16)) := by
  rcases Nat.lt_or_ge 1 D with hD2 | hD1
  · -- more than one device
    have hget := partition_equally_getD n D hD2 hnd hov
    set c := alignup ((n + D - 1) / D) 16 with hc
    have hlen : (partition_equally n D).length = D + 1 := by
      unfold partition_equally
      rw [if_pos hD2]
      simp [peLoop_length]
    refine ⟨hlen, ?_, ?_, ?_, ?_, ?_⟩
    · rw [hget 0 (by omega)]
      simp
    · intro i hi
      rw [hget i (by omega), hget (i + 1) (by omega)]
      have hmul : i * c ≤ (i + 1) * c := Nat.mul_le_mul_right c (by omega)
      omega
    · rw [hget D (by omega)]
      -- n ≤ D * chunk, because chunk ≥ ceil(n / D)
      have hq : n ≤ D * ((n + D - 1) / D) := by
        have hdm := Nat.div_add_mod (n + D - 1) D
        have hr : (n + D - 1) % D < D := Nat.mod_lt _ (by omega)
        omega
      have hqn : (n + D - 1) / D < n + 1 := by
        rw [Nat.div_lt_iff_lt_mul (by omega)]
        have hnn : n * 1 ≤ n * D := Nat.mul_le_mul_left n (by omega)
        rw [Nat.add_mul, Nat.one_mul]
        omega
      have hal : (n + D - 1) / D ≤ c := alignup_ge _ (by omega)
      have hDc : D * ((n + D - 1) / D) ≤ D * c := Nat.mul_le_mul_left D hal
      have hmc : D * c = min n (D * c) + (D * c - n) := by omega
      rw [Nat.mul_comm D c] at hDc hmc
      rw [Nat.mul_comm D c]
      omega
    · intro h1
      omega
    · intro _ i hi
      rw [hget i (by omega), hget (i + 1) (by omega), Nat.succ_mul]
      omega
  · -- exactly one device
    have hD1' : D = 1 := by omega
    subst hD1'
    have hpe : partition_equally n 1 = [0, n] := by
      unfold partition_equally
      norm_num
    refine ⟨by rw [hpe]; rfl, by rw [hpe]; rfl, ?_, by rw [hpe]; rfl, fun _ => hpe, ?_⟩
    · intro i hi
      have hi0 : i = 0 := by omega
      subst hi0
      rw [hpe]
      simp
    · intro h
      omega

/-- Witness for `partition_equally_correct` at `n = 100`, `D = 3`
(the resulting table is `[0, 48, 96, 100]`). -/
theorem partition_equally_correct_witness :
    (1 ≤ 3 ∧ 100 + 3 - 1 < U32 ∧ 100 + 16 < U32 ∧
      100 + alignup ((100 + 3 - 1) / 3) 16 < U32) ∧
    ((partition_equally 100 3).length = 3 + 1 ∧
    (partition_equally 100 3).getD 0 0 = 0 ∧
    (∀ i, i < 3 →
      (partition_equally 100 3).getD i 0 ≤ (partition_equally 100 3).getD (i + 1) 0) ∧
    (partition_equally 100 3).getD 3 0 = 100 ∧
    (3 = 1 → partition_equally 100 3 = [0, 100]) ∧
    (1 < 3 → ∀ i, i < 3 →
      (partition_equally 100 3).getD (i + 1) 0 =
        min 100 ((partition_equally 100 3).getD i 0 + alignup ((100 + 3 - 1) / 3) 16))) :=
  ⟨⟨by decide, by decide, by decide, by decide⟩,
    partition_equally_correct 100 3 (by decide) (by decide) (by decide) (by decide)⟩

/-- C1 counterexample: at `n = 2^32 - 1` with `D = 2` devices the `uint`
sum `n + m - 1` wraps around, the chunk size collapses to 0, and the
returned table is `[0, 0, 0]`, whose last entry differs from `n`. -/
theorem partition_equally_claim_counterexample :
    partition_equally 4294967295 2 = [0, 0, 0] ∧
    (0 : Nat) ≠ 4294967295 := by
  constructor
  · rfl
  · decide

/-! ### Lemmas about the workgroup-size halving loop -/

theorem halveUntil_le_self (w d : Nat) : halveUntil w d ≤ w := by
  induction w using Nat.strong_induction_on with
  | _ w ih =>
    rw [halveUntil]
    split
    · next h =>
      exact le_trans (ih (w / 2) (Nat.div_lt_self (by omega) (by omega))) (Nat.div_le_self w 2)
    · exact Nat.le_refl w

theorem halveUntil_le_dev (w d : Nat) : halveUntil w d ≤ d := by
  induction w using Nat.strong_induction_on with
  | _ w ih =>
    rw [halveUntil]
    split
    · next h => exact ih (w / 2) (Nat.div_lt_self (by omega) (by omega))
    · next h => omega

theorem halveUntil_div_pow (w d : Nat) : ∃ k, halveUntil w d = w / 2 ^ k := by
  induction w using Nat.strong_induction_on with
  | _ w ih =>
    rw [halveUntil]
    split
    · next h =>
      obtain ⟨k, hk⟩ := ih (w / 2) (Nat.div_lt_self (by omega) (by omega))
      refine ⟨k + 1, ?_⟩
      rw [hk, Nat.div_div_eq_div_mul, Nat.pow_succ, Nat.mul_comm (2 ^ k) 2]
    · exact ⟨0, by simp⟩

theorem halveUntil_maximal (w d : Nat) : ∀ j, w / 2 ^ j ≤ d → w / 2 ^ j ≤ halveUntil w d := by
  induction w using Nat.strong_induction_on with
  | _ w ih =>
    intro j hj
    rw [halveUntil]
    split
    · next h =>
      cases j with
      | zero =>
        simp only [Nat.pow_zero, Nat.div_one] at hj
        omega
      | succ j =>
        have heq : w / 2 ^ (j + 1) = (w / 2) / 2 ^ j := by
          rw [Nat.div_div_eq_div_mul, Nat.pow_succ, Nat.mul_comm (2 ^ j) 2]
        rw [heq] at hj ⊢
        exact ih (w / 2) (Nat.div_lt_self (by omega) (by omega)) j hj
    · next h => exact Nat.div_le_self w (2 ^ j)

theorem foldl_halveUntil_le_init (l : List Nat) : ∀ w, l.foldl halveUntil w ≤ w := by
  induction l with
  | nil => intro w; exact Nat.le_refl w
  | cons a l ih =>
    intro w
    exact le_trans (ih (halveUntil w a)) (halveUntil_le_self w a)

theorem foldl_halveUntil_le_mem (l : List Nat) : ∀ w d, d ∈ l → l.foldl halveUntil w ≤ d := by
  induction l with
  | nil => intro w d h; cases h
  | cons a l ih =>
    intro w d h
    rcases List.mem_cons.mp h with rfl | h'
    · exact le_trans (foldl_halveUntil_le_init l (halveUntil w d)) (halveUntil_le_dev w d)
    · exact ih (halveUntil w a) d h'

theorem foldl_halveUntil_div_pow (l : List Nat) : ∀ w, ∃ k, l.foldl halveUntil w = w / 2 ^ k := by
  induction l with
  | nil => intro w; exact ⟨0, by simp⟩
  | cons a l ih =>
    intro w
    obtain ⟨k₁, hk₁⟩ := halveUntil_div_pow w a
    obtain ⟨k₂, hk₂⟩ := ih (halveUntil w a)
    refine ⟨k₁ + k₂, ?_⟩
    rw [List.foldl_cons, hk₂, hk₁, Nat.div_div_eq_div_mul, Nat.pow_add]

theorem foldl_halveUntil_maximal (l : List Nat) :
    ∀ w j, (∀ d ∈ l, w / 2 ^ j ≤ d) → w / 2 ^ j ≤ l.foldl halveUntil w := by
  induction l with
  | nil => intro w j _; exact Nat.div_le_self w (2 ^ j)
  | cons a l ih =>
    intro w j h
    have ha : w / 2 ^ j ≤ halveUntil w a :=
      halveUntil_maximal w a j (h a (List.mem_cons_self a l))
    obtain ⟨k, hk⟩ := halveUntil_div_pow w a
    rw [List.foldl_cons]
    rcases Nat.le_total k j with hkj | hjk
    · have heq : w / 2 ^ j = halveUntil w a / 2 ^ (j - k) := by
        rw [hk, Nat.div_div_eq_div_mul, ← Nat.pow_add]
        congr 2
        omega
      rw [heq]
      refine ih (halveUntil w a) (j - k) ?_
      intro d hd
      rw [← heq]
      exact h d (List.mem_cons_of_mem a hd)
    · have hle : w / 2 ^ k ≤ w / 2 ^ j :=
        Nat.div_le_div_left (Nat.pow_le_pow_right (by omega) hjk) (Nat.pos_pow_of_pos j (by omega))
      have heq : w / 2 ^ j = halveUntil w a := by omega
      have h0 : halveUntil w a / 2 ^ 0 = w / 2 ^ j := by
        rw [heq]
        simp
      rw [← h0]
      refine ih (halveUntil w a) 0 ?_
      intro d hd
      rw [h0]
      exact h d (List.mem_cons_of_mem a hd)

/-- C9: for a non-empty device list with positive reported maxima,
`kernel_workgroup_size` is of the form `1024 / 2 ^ k`, is at most 1024 and
at most every device's maximum, is the largest such value, is a power of
two, and equals 1024 when every device reports at least 1024. -/
theorem kernel_workgroup_size_correct (devs : List Nat) (hne : devs ≠ [])
    (hpos : ∀ d ∈ devs, 0 < d) :
    (∃ k, kernel_workgroup_size devs = 1024 / 2 ^ k) ∧
    kernel_workgroup_size devs ≤ 1024 ∧
    (∀ d ∈ devs, kernel_workgroup_size devs ≤ d) ∧
    (∀ j, 1024 / 2 ^ j ≤ 1024 → (∀ d ∈ devs, 1024 / 2 ^ j ≤ d) →
      1024 / 2 ^ j ≤ kernel_workgroup_size devs) ∧
    (∃ m, kernel_workgroup_size devs = 2 ^ m) ∧
    ((∀ d ∈ devs, 1024 ≤ d) → kernel_workgroup_size devs = 1024) := by
  obtain ⟨k, hk⟩ := foldl_halveUntil_div_pow devs 1024
  have hone : 1 ≤ kernel_workgroup_size devs := by
    have h10 : ∀ d ∈ devs, 1024 / 2 ^ 10 ≤ d := by
      intro d hd
      have := hpos d hd
      norm_num
      omega
    have := foldl_halveUntil_maximal devs 1024 10 h10
    norm_num at this
    exact this
  refine ⟨⟨k, hk⟩, foldl_halveUntil_le_init devs 1024,
    foldl_halveUntil_le_mem devs 1024, ?_, ?_, ?_⟩
  · intro j _ hj
    exact foldl_halveUntil_maximal devs 1024 j hj
  · -- power of two: 1 ≤ 1024 / 2 ^ k forces k ≤ 10, so 1024 / 2 ^ k = 2 ^ (10 - k)
    refine ⟨10 - k, ?_⟩
    have hkw : kernel_workgroup_size devs = 1024 / 2 ^ k := hk
    have h2k : 2 ^ k ≤ 1024 := by
      by_contra hcon
      have hz : 1024 / 2 ^ k = 0 := Nat.div_eq_of_lt (by omega)
      rw [hkw, hz] at hone
      omega
    have hk10 : k ≤ 10 := by
      by_contra hcon
      have : 2 ^ 11 ≤ 2 ^ k := Nat.pow_le_pow_right (by omega) (by omega)
      norm_num at this
      omega
    rw [hkw, show (1024 : Nat) = 2 ^ 10 by norm_num, Nat.pow_div hk10 (by omega)]
  · intro hall
    have hmax : 1024 / 2 ^ 0 ≤ kernel_workgroup_size devs := by
      refine foldl_halveUntil_maximal devs 1024 0 ?_
      intro d hd
      simpa using hall d hd
    have hmin : kernel_workgroup_size devs ≤ 1024 := foldl_halveUntil_le_init devs 1024
    simp only [Nat.pow_zero, Nat.div_one] at hmax
    omega

/-- Witness for `kernel_workgroup_size_correct` at the device list
`[512, 300]` (the computed work-group size is 256). -/
theorem kernel_workgroup_size_correct_witness :
    (([512, 300] : List Nat) ≠ [] ∧ ∀ d ∈ ([512, 300] : List Nat), 0 < d) ∧
    ((∃ k, kernel_workgroup_size [512, 300] = 1024 / 2 ^ k) ∧
    kernel_workgroup_size [512, 300] ≤ 1024 ∧
    (∀ d ∈ ([512, 300] : List Nat), kernel_workgroup_size [512, 300] ≤ d) ∧
    (∀ j, 1024 / 2 ^ j ≤ 1024 → (∀ d ∈ ([512, 300] : List Nat), 1024 / 2 ^ j ≤ d) →
      1024 / 2 ^ j ≤ kernel_workgroup_size [512, 300]) ∧
    (∃ m, kernel_workgroup_size [512, 300] = 2 ^ m) ∧
    ((∀ d ∈ ([512, 300] : List Nat), 1024 ≤ d) → kernel_workgroup_size [512, 300] = 1024)) :=
  ⟨⟨by decide, by decide⟩, kernel_workgroup_size_correct [512, 300] (by decide) (by decide)⟩

/-- C7: the first `partitioning_scheme::set` installs the function without
warning; once a policy is active — whether through an earlier `set` or
through first use, which installs the default — every further `set` warns
and leaves the state unchanged, and every later call keeps applying the
stored function with the state unchanged. -/
theorem partitioning_scheme_set_once (α : Type) (f g dflt p : α) (s : PScheme α) :
    pschemeSet f (pschemeInit α) = (⟨true, some f⟩, false) ∧
    (s.is_set = true → pschemeSet g s = (s, true)) ∧
    pschemeSet g (pschemeCall dflt (pschemeInit α)).1 =
      ((pschemeCall dflt (pschemeInit α)).1, true) ∧
    (s.is_set = true → s.pfun = some p → pschemeCall dflt s = (s, p)) := by
  refine ⟨rfl, ?_, rfl, ?_⟩
  · intro hs
    simp [pschemeSet, hs]
  · intro hs hp
    simp [pschemeCall, hs, hp]

/-- Witness for `partitioning_scheme_set_once` with concrete policies over
`Nat` and an active state storing policy 5. -/
theorem partitioning_scheme_set_once_witness :
    ((⟨true, some 5⟩ : PScheme Nat).is_set = true ∧
      (⟨true, some 5⟩ : PScheme Nat).pfun = some 5) ∧
    (pschemeSet 1 (pschemeInit Nat) = (⟨true, some 1⟩, false) ∧
    ((⟨true, some 5⟩ : PScheme Nat).is_set = true →
      pschemeSet 2 ⟨true, some 5⟩ = (⟨true, some 5⟩, true)) ∧
    pschemeSet 2 (pschemeCall 3 (pschemeInit Nat)).1 =
      ((pschemeCall 3 (pschemeInit Nat)).1, true) ∧
    ((⟨true, some 5⟩ : PScheme Nat).is_set = true →
      (⟨true, some 5⟩ : PScheme Nat).pfun = some 5 →
      pschemeCall 3 ⟨true, some 5⟩ = (⟨true, some 5⟩, 5))) :=
  ⟨⟨rfl, rfl⟩, partitioning_scheme_set_once Nat 1 2 3 5 ⟨true, some 5⟩⟩

/-! ### Device vector state, move semantics and copy assignment
(vector.hpp).  Handles held by the vector (command queues, buffers,
completion events) are opaque to the core and modelled as `Nat` tokens;
the partition table is the `size_t` vector `part`. -/

/-- The four data members of `vex::vector`: queue list, partition table,
per-device buffer handles and per-device completion events. -/
structure VecState where
  queue : List Nat
  part : List Nat
  buf : List Nat
  event : List Nat
deriving DecidableEq

/-- A default-constructed `vex::vector`: all member vectors empty. -/
def vecEmpty : VecState := ⟨[], [], [], []⟩

/-- Embedding of `vector::size()`: `part.empty() ? 0 : part.back()`. -/
def vecSize (v : VecState) : Nat := v.part.getLastD 0

/-- Embedding of `vector::nparts()`: `queue.size()`. -/
def nparts (v : VecState) : Nat := v.queue.length

/-- Embedding of `vector::swap`: exchanges all four members. -/
def vecSwap (a b : VecState) : VecState × VecState := (b, a)

/-- Embedding of the move constructor `vector(vector&&)`: the members are
default-constructed (empty) and then swapped with the source.  Returns
(constructed vector, moved-from source). -/
def moveCtor (v : VecState) : VecState × VecState := vecSwap vecEmpty v

/-- Embedding of the move assignment `operator=(vector&&)`: `swap(v)`.
Returns (assigned destination, moved-from source). -/
def moveAssign (dst v : VecState) : VecState × VecState := vecSwap dst v

/-- A device-to-device copy command enqueued by the copy assignment:
device index, source buffer handle, destination buffer handle, byte
count. -/
structure CopyCmd where
  dev : Nat
  srcBuf : Nat
  dstBuf : Nat
  bytes : Nat
deriving DecidableEq

/-- Embedding of the copy assignment `operator=(const vector&)`:
`if (&x != this)` — the flag `sameObject` models the address identity
test — enqueue one `enqueueCopyBuffer` per device whose partition is
non-empty; `esize` is `sizeof(T)`.  Returns the destination state (whose
members are untouched) and the list of enqueued copy commands. -/
def copyAssign (esize : Nat) (sameObject : Bool) (this x : VecState) :
    VecState × List CopyCmd :=
  if sameObject then (this, [])
  else
    (this,
      (List.range this.queue.length).filterMap (fun d =>
        if this.part.getD (d + 1) 0 - this.part.getD d 0 ≠ 0 then
          some ⟨d, x.buf.getD d 0, this.buf.getD d 0,
            (this.part.getD (d + 1) 0 - this.part.getD d 0) * esize⟩
        else none))

/-- C5 counterexample: move assignment is implemented as `swap`, so when
the destination previously held one device the moved-from vector receives
that state and is not empty with zero devices. -/
theorem move_assign_claim_counterexample :
    nparts (moveAssign ⟨[5], [0, 4], [10], [20]⟩ ⟨[6], [0, 3], [11], [21]⟩).2 ≠ 0 := by
  decide

/-- C5 (amended): a move (construction or assignment) transfers ownership
of all per-device handles, the partition table and the completion markers
to the destination without copying buffer contents; after move
construction the moved-from vector is empty with zero devices, while
after move assignment the moved-from vector holds exactly the
destination's previous members (swap semantics). -/
theorem move_transfers_ownership (dst v : VecState) :
    (moveCtor v).1 = v ∧
    (moveCtor v).2 = vecEmpty ∧
    nparts (moveCtor v).2 = 0 ∧
    vecSize (moveCtor v).2 = 0 ∧
    (moveAssign dst v).1 = v ∧
    (moveAssign dst v).2 = dst :=
  ⟨rfl, rfl, rfl, rfl, rfl, rfl⟩

/-- C10: copy-assigning a vector to itself (the address test
`&x != this` fails) enqueues no device-to-device copy command and leaves
the vector's members unchanged. -/
theorem self_copy_assign_noop (esize : Nat) (x : VecState) :
    copyAssign esize true x x = (x, []) := rfl

/-! ### The kernel cache of the expression assignment (vector.hpp).
The template statics `exdata<Expr>::compiled / kernel / wgsize` form one
process-lifetime map per expression shape keyed by the raw `cl_context`;
shapes and contexts are modelled as `Nat` tokens and the three statics as
one association list keyed by (shape, context) holding the recorded
kernel handle and work-group size. -/

/-- A cache entry: the compiled kernel handle and the recorded work-group
size. -/
abbrev KEntry := Nat × Nat

/-- The kernel cache: one entry per (shape, context) key. -/
abbrev KCache := List ((Nat × Nat) × KEntry)

/-- Lookup in the kernel cache (`exdata<Expr>::compiled[context()]` plus
the corresponding `kernel` / `wgsize` reads). -/
def clookup (k : Nat × Nat) : KCache → Option KEntry
  | [] => none
  | (k', e) :: rest => if k = k' then some e else clookup k rest

/-- Embedding of the first loop of `vector::operator=(const Expr&)`: for
each queue's context, if `!exdata<Expr>::compiled[context()]` then build
the kernel source, compile it and record kernel handle and work-group
size.  `compile` models `build_sources` + `kernel_workgroup_size` for a
given shape and context.  Returns the updated cache and the list of
contexts for which a compilation was performed, in order. -/
def compile_loop (compile : Nat → Nat → KEntry) (shape : Nat) :
    List Nat → KCache → KCache × List Nat
  | [], c => (c, [])
  | ctx :: rest, c =>
    match clookup (shape, ctx) c with
    | some _ => compile_loop compile shape rest c
    | none =>
      ((compile_loop compile shape rest (((shape, ctx), compile shape ctx) :: c)).1,
        ctx :: (compile_loop compile shape rest (((shape, ctx), compile shape ctx) :: c)).2)

theorem compile_loop_preserves (compile : Nat → Nat → KEntry) (shape : Nat) :
    ∀ (ctxs : List Nat) (c : KCache) (k : Nat × Nat) (e : KEntry),
      clookup k c = some e → clookup k (compile_loop compile shape ctxs c).1 = some e := by
  intro ctxs
  induction ctxs with
  | nil => intro c k e h; exact h
  | cons a rest ih =>
    intro c k e h
    cases hca : clookup (shape, a) c with
    | some e' =>
      simp only [compile_loop, hca]
      exact ih c k e h
    | none =>
      have hne : k ≠ (shape, a) := by
        intro heq
        rw [heq, hca] at h
        cases h
      simp only [compile_loop, hca]
      apply ih
      simp [clookup, hne, h]

theorem compile_loop_lookup (compile : Nat → Nat → KEntry) (shape : Nat) :
    ∀ (ctxs : List Nat) (c : KCache) (ctx : Nat),
      clookup (shape, ctx) (compile_loop compile shape ctxs c).1 =
        if ctx ∈ ctxs ∧ clookup (shape, ctx) c = none then some (compile shape ctx)
        else clookup (shape, ctx) c := by
  intro ctxs
  induction ctxs with
  | nil => intro c ctx; simp [compile_loop]
  | cons a rest ih =>
    intro c ctx
    by_cases hax : ctx = a
    · subst hax
      cases hca : clookup (shape, ctx) c with
      | some e' =>
        simp only [compile_loop, hca]
        rw [ih c ctx]
        simp [hca]
      | none =>
        simp only [compile_loop, hca]
        rw [ih (((shape, ctx), compile shape ctx) :: c) ctx]
        simp [clookup]
    · cases hca : clookup (shape, a) c with
      | some e' =>
        simp only [compile_loop, hca]
        rw [ih c ctx]
        simp [List.mem_cons, hax]
      | none =>
        have hkey : (shape, ctx) ≠ (shape, a) := by
          intro heq
          exact hax (congrArg Prod.snd heq)
        simp only [compile_loop, hca]
        rw [ih (((shape, a), compile shape a) :: c) ctx]
        simp only [clookup, if_neg hkey]
        simp [List.mem_cons, hax]

theorem compile_loop_count (compile : Nat → Nat → KEntry) (shape : Nat) :
    ∀ (ctxs : List Nat) (c : KCache) (ctx : Nat),
      (compile_loop compile shape ctxs c).2.count ctx =
        if ctx ∈ ctxs ∧ clookup (shape, ctx) c = none then 1 else 0 := by
  intro ctxs
  induction ctxs with
  | nil => intro c ctx; simp [compile_loop]
  | cons a rest ih =>
    intro c ctx
    by_cases hax : ctx = a
    · subst hax
      cases hca : clookup (shape, ctx) c with
      | some e' =>
        simp only [compile_loop, hca]
        rw [ih c ctx]
        simp [hca]
      | none =>
        simp only [compile_loop, hca, List.count_cons]
        rw [ih (((shape, ctx), compile shape ctx) :: c) ctx]
        simp [clookup]
    · cases hca : clookup (shape, a) c with
      | some e' =>
        simp only [compile_loop, hca]
        rw [ih c ctx]
        simp [List.mem_cons, hax]
      | none =>
        have hkey : (shape, ctx) ≠ (shape, a) := by
          intro heq
          exact hax (congrArg Prod.snd heq)
        simp only [compile_loop, hca, List.count_cons]
        rw [ih (((shape, a), compile shape a) :: c) ctx]
        simp only [clookup, if_neg hkey]
        simp [List.mem_cons, hax, Ne.symm hax]

theorem compile_loop_skip (compile : Nat → Nat → KEntry) (shape : Nat) :
    ∀ (ctxs : List Nat) (c : KCache),
      (∀ ctx ∈ ctxs, clookup (shape, ctx) c ≠ none) →
      compile_loop compile shape ctxs c = (c, []) := by
  intro ctxs
  induction ctxs with
  | nil => intro c _; rfl
  | cons a rest ih =>
    intro c h
    cases hca : clookup (shape, a) c with
    | some e' =>
      simp only [compile_loop, hca]
      exact ih c (fun ctx hc => h ctx (List.mem_cons_of_mem a hc))
    | none => exact absurd hca (h a (List.mem_cons_self a rest))

/-- C2: the compile phase of the expression assignment compiles at most
once per (shape, context) pair: an existing cache entry is never removed
or overwritten; a context with no entry is compiled exactly once and the
entry recorded; a context with an entry triggers no compilation; and
running the whole assignment a second time over the same contexts
performs no compilation at all and leaves the cache unchanged. -/
theorem kernel_cache_compile_once (compile : Nat → Nat → KEntry) (shape : Nat)
    (ctxs : List Nat) (c : KCache) :
    (∀ (k : Nat × Nat) (e : KEntry), clookup k c = some e →
      clookup k (compile_loop compile shape ctxs c).1 = some e) ∧
    (∀ ctx ∈ ctxs, clookup (shape, ctx) c = none →
      (compile_loop compile shape ctxs c).2.count ctx = 1 ∧
      clookup (shape, ctx) (compile_loop compile shape ctxs c).1 =
        some (compile shape ctx)) ∧
    (∀ ctx ∈ ctxs, clookup (shape, ctx) c ≠ none →
      ctx ∉ (compile_loop compile shape ctxs c).2) ∧
    compile_loop compile shape ctxs (compile_loop compile shape ctxs c).1 =
      ((compile_loop compile shape ctxs c).1, []) := by
  refine ⟨compile_loop_preserves compile shape ctxs c, ?_, ?_, ?_⟩
  · intro ctx hmem hnone
    constructor
    · rw [compile_loop_count compile shape ctxs c ctx, if_pos ⟨hmem, hnone⟩]
    · rw [compile_loop_lookup compile shape ctxs c ctx, if_pos ⟨hmem, hnone⟩]
  · intro ctx hmem hsome
    have hcnt : (compile_loop compile shape ctxs c).2.count ctx = 0 := by
      rw [compile_loop_count compile shape ctxs c ctx]
      simp [hsome]
    exact List.count_eq_zero.mp hcnt
  · apply compile_loop_skip
    intro ctx hmem
    rw [compile_loop_lookup compile shape ctxs c ctx]
    by_cases hn : clookup (shape, ctx) c = none
    · rw [if_pos ⟨hmem, hn⟩]
      simp
    · rw [if_neg (fun hand => hn hand.2)]
      exact hn

/-- Concrete compilation function for the cache witness: maps a (shape,
context) pair to a kernel handle and a work-group size. -/
def witnessCompile (shape ctx : Nat) : KEntry := (10 * shape + ctx, 64)

/-- Witness for `kernel_cache_compile_once`: shape 1 assigned over the
contexts `[7, 7, 8]` (two queues sharing context 7) with context 8
already cached. -/
theorem kernel_cache_compile_once_witness :
    (clookup (1, 8) [((1, 8), (9, 32))] = some (9, 32) ∧
      (7 : Nat) ∈ [7, 7, 8] ∧ clookup (1, 7) [((1, 8), (9, 32))] = none ∧
      (8 : Nat) ∈ [7, 7, 8] ∧ clookup (1, 8) [((1, 8), (9, 32))] ≠ none) ∧
    (clookup (1, 8) (compile_loop witnessCompile 1 [7, 7, 8] [((1, 8), (9, 32))]).1 =
      some (9, 32) ∧
    (compile_loop witnessCompile 1 [7, 7, 8] [((1, 8), (9, 32))]).2.count 7 = 1 ∧
    clookup (1, 7) (compile_loop witnessCompile 1 [7, 7, 8] [((1, 8), (9, 32))]).1 =
      some (witnessCompile 1 7) ∧
    (8 : Nat) ∉ (compile_loop witnessCompile 1 [7, 7, 8] [((1, 8), (9, 32))]).2 ∧
    compile_loop witnessCompile 1 [7, 7, 8]
        (compile_loop witnessCompile 1 [7, 7, 8] [((1, 8), (9, 32))]).1 =
      ((compile_loop witnessCompile 1 [7, 7, 8] [((1, 8), (9, 32))]).1, [])) :=
  ⟨⟨rfl, by decide, rfl, by decide, by decide⟩,
    (kernel_cache_compile_once witnessCompile 1 [7, 7, 8] [((1, 8), (9, 32))]).1
      (1, 8) (9, 32) rfl,
    ((kernel_cache_compile_once witnessCompile 1 [7, 7, 8] [((1, 8), (9, 32))]).2.1
      7 (by decide) rfl).1,
    ((kernel_cache_compile_once witnessCompile 1 [7, 7, 8] [((1, 8), (9, 32))]).2.1
      7 (by decide) rfl).2,
    (kernel_cache_compile_once witnessCompile 1 [7, 7, 8] [((1, 8), (9, 32))]).2.2.1
      8 (by decide) (by decide),
    (kernel_cache_compile_once witnessCompile 1 [7, 7, 8] [((1, 8), (9, 32))]).2.2.2⟩

/-! ### Expression assignment semantics and the compound assignments
(vector.hpp).  An expression tree is a vector terminal, a scalar
terminal, or a binary operator node; the generated kernel evaluates the
tree once per element of the target, so the effect of an assignment on
the target's logical contents is the elementwise evaluation below.  The
meaning of each operator token is whatever OpenCL gives it, kept
abstract as `interp`. -/

/-- The ten binary operator tokens used by the `COMPOUND_ASSIGNMENT`
macro. -/
inductive BinOp where
  | add | sub | mul | div | mod | band | bor | bxor | shl | shr
deriving DecidableEq

/-- An expression tree over element type `α`: vector terminal (its
logical contents), scalar terminal, or operator node. -/
inductive VExpr (α : Type) where
  | vec (v : List α)
  | scal (c : α)
  | binop (op : BinOp) (l r : VExpr α)

/-- Evaluation of an expression at one element index, as the generated
kernel body does inside its grid-strided loop. -/
def evalExpr {α : Type} [Inhabited α] (interp : BinOp → α → α → α) :
    VExpr α → Nat → α
  | .vec v, i => v.getD i default
  | .scal c, _ => c
  | .binop op l r, i => interp op (evalExpr interp l i) (evalExpr interp r i)

/-- Effect of `vector::operator=(const Expr&)` on the target's logical
contents: every element of the target is overwritten with the expression
evaluated at its index. -/
def exprAssign {α : Type} [Inhabited α] (interp : BinOp → α → α → α)
    (x : List α) (e : VExpr α) : List α :=
  (List.range x.length).map (evalExpr interp e)

/-- Embedding of the `COMPOUND_ASSIGNMENT(cop, op)` macro:
`return *this = *this op expr;` — the compound form only builds the
composed expression and delegates to the plain assignment. -/
def compoundAssign {α : Type} [Inhabited α] (interp : BinOp → α → α → α)
    (op : BinOp) (x : List α) (e : VExpr α) : List α :=
  exprAssign interp x (VExpr.binop op (VExpr.vec x) e)

/-- C8: for every operator of the `COMPOUND_ASSIGNMENT` macro,
`x op= e` has exactly the effect of `x = x op e` — the compound form
introduces no behaviour of its own — and elementwise the result applies
the operator to the old element and the evaluated right-hand side. -/
theorem compound_assign_delegates {α : Type} [Inhabited α]
    (interp : BinOp → α → α → α) (op : BinOp) (x : List α) (e : VExpr α) :
    compoundAssign interp op x e =
      exprAssign interp x (VExpr.binop op (VExpr.vec x) e) ∧
    (compoundAssign interp op x e).length = x.length ∧
    (∀ i, i < x.length →
      (compoundAssign interp op x e).getD i default =
        interp op (x.getD i default) (evalExpr interp e i)) := by
  refine ⟨rfl, by simp [compoundAssign, exprAssign], ?_⟩
  intro i hi
  simp only [compoundAssign, exprAssign]
  rw [List.getD_eq_getElem?_getD, List.getElem?_map]
  simp [List.getElem?_range, hi, evalExpr]

/-- Concrete operator interpretation over `Int` for the compound
assignment witness. -/
def intInterp : BinOp → Int → Int → Int
  | .add, a, b => a + b
  | .sub, a, b => a - b
  | .mul, a, b => a * b
  | _, a, _ => a

/-- Witness for `compound_assign_delegates`: `x += 3` on the vector
`[1, 2]` over `Int`. -/
theorem compound_assign_delegates_witness :
    (0 < ([1, 2] : List Int).length) ∧
    (compoundAssign intInterp BinOp.add [1, 2] (VExpr.scal 3) =
      exprAssign intInterp [1, 2] (VExpr.binop BinOp.add (VExpr.vec [1, 2]) (VExpr.scal 3)) ∧
    (compoundAssign intInterp BinOp.add [1, 2] (VExpr.scal 3)).getD 0 default =
      intInterp BinOp.add ((1 : Int)) (evalExpr intInterp (VExpr.scal 3) 0)) :=
  ⟨by decide,
    (compound_assign_delegates intInterp BinOp.add [1, 2] (VExpr.scal 3)).1,
    (compound_assign_delegates intInterp BinOp.add [1, 2] (VExpr.scal 3)).2.2 0 (by decide)⟩

/-! ### The sparse matrix-vector assignment path (vector.hpp).
`vector::operator=(const spmv_expression<Expr>&)` evaluates the
expression with `assign_spmv_context`.  Its `terminal` case — the one a
top-level `A * x` product reaches — only prints the expression to
standard output: the line `spmv.mul(ctx.v);` is commented out in the
source, so the target vector is left untouched. -/

/-- Effect on the target of the `terminal` case of
`assign_spmv_context::eval`: the source prints debug text and performs no
multiplication (the `spmv.mul(ctx.v)` call is commented out), so the
target's contents are returned unchanged. -/
def assignSpmvTerminal (target : List Int) : List Int := target

/-- A sparse-matrix shard in compressed row form: local row count, row
offset array, global column indices, values. -/
structure CSRMat where
  rows : Nat
  rowOff : List Nat
  colInd : List Nat
  vals : List Int
deriving DecidableEq

/-- Modelled from the spec: `SpMat::mul`, the per-shard sparse multiply,
is declared by the sparse-matrix engine but its definition is not part of
the provided sources.  Per the spec, each shard stores a compressed row
representation (row-offset array, global column indices, value array) and
the multiply writes `A * x` into the target's local partition:
row `i` of the result is the sum over the row's stored entries of
`value * x[column]`. -/
def csrMul (A : CSRMat) (x : List Int) : List Int :=
  (List.range A.rows).map (fun i =>
    ((List.range (A.rowOff.getD (i + 1) 0 - A.rowOff.getD i 0)).map (fun k =>
      A.vals.getD (A.rowOff.getD i 0 + k) 0 *
        x.getD (A.colInd.getD (A.rowOff.getD i 0 + k) 0) 0)).foldl (· + ·) 0)

/-- The 4×4 identity matrix in compressed row form. -/
def csrId4 : CSRMat := ⟨4, [0, 1, 2, 3, 4], [0, 1, 2, 3], [1, 1, 1, 1]⟩

/-- The all-ones 3×3 matrix in compressed row form. -/
def csrOnes3 : CSRMat :=
  ⟨3, [0, 3, 6, 9], [0, 1, 2, 0, 1, 2, 0, 1, 2], [1, 1, 1, 1, 1, 1, 1, 1, 1]⟩

/-- C4 (code bug): assigning a top-level sparse product should store
`A * x` in the target — for the 4×4 identity that is `x` itself, and for
the all-ones 3×3 matrix with `x = [1, 2, 3]` it is `[6, 6, 6]` — but the
terminal case of `assign_spmv_context` leaves the target `[0, 0, 0, 0]`
unchanged because the multiply call is commented out in the source. -/
theorem spmv_terminal_assignment_bug :
    assignSpmvTerminal [0, 0, 0, 0] = [0, 0, 0, 0] ∧
    csrMul csrId4 [1, 2, 3, 4] = [1, 2, 3, 4] ∧
    csrMul csrOnes3 [1, 2, 3] = [6, 6, 6] ∧
    assignSpmvTerminal [0, 0, 0, 0] ≠ csrMul csrId4 [1, 2, 3, 4] := by
  refine ⟨rfl, by decide, by decide, by decide⟩

/-! ### Bulk host transfers (vector.hpp).  `write_data` and `read_data`
intersect the global range `[offset, offset + size)` with each device's
partition `[part[d], part[d+1])` and issue one non-blocking transfer per
device whose partition intersects.  Buffer contents are modelled as one
list per device; a transfer overwrites a contiguous segment of its
destination list. -/

/-- Overwrite the segment of `dst` starting at `pos` with `seg`
(the effect of one contiguous buffer transfer on its destination). -/
def updSeg {α : Type} (dst : List α) (pos : Nat) (seg : List α) : List α :=
  dst.take pos ++ seg ++ dst.drop (pos + seg.length)

/-- One iteration of the `write_data` loop (vector.hpp): clip the global
range against device `d`'s partition; if the intersection is empty skip,
otherwise overwrite the device buffer `b` at local offset
`start - part[d]` with the host data at `hostptr + start - offset`. -/
def writeDev {α : Type} (part : List Nat) (offset size : Nat) (host : List α)
    (d : Nat) (b : List α) : List α :=
  let start := max offset (part.getD d 0)
  let stop := min (offset + size) (part.getD (d + 1) 0)
  if stop ≤ start then b
  else updSeg b (start - part.getD d 0)
    ((host.drop (start - offset)).take (stop - start))

/-- Embedding of `vector::write_data` (effect on the device buffers):
returns unchanged buffers when `size == 0`, otherwise runs the loop over
every device `d < queue.size()` (the buffer list has exactly that
length). -/
def write_data {α : Type} (part : List Nat) (bufs : List (List α))
    (offset size : Nat) (host : List α) : List (List α) :=
  if size = 0 then bufs
  else (List.range bufs.length).map (fun d => writeDev part offset size host d (bufs.getD d []))

/-- One iteration of the `read_data` loop (vector.hpp): clip the global
range against device `d`'s partition; if the intersection is empty skip,
otherwise overwrite the host array at `start - offset` with the device
buffer's data at local offset `start - part[d]`. -/
def readDev {α : Type} (part : List Nat) (offset size : Nat)
    (bufs : List (List α)) (d : Nat) (host : List α) : List α :=
  let start := max offset (part.getD d 0)
  let stop := min (offset + size) (part.getD (d + 1) 0)
  if stop ≤ start then host
  else updSeg host (start - offset)
    (((bufs.getD d []).drop (start - part.getD d 0)).take (stop - start))

/-- Embedding of `vector::read_data` (effect on the host array):
returns the host array unchanged when `size == 0`, otherwise runs the
loop over every device in order. -/
def read_data {α : Type} (part : List Nat) (bufs : List (List α))
    (offset size : Nat) (host : List α) : List α :=
  if size = 0 then host
  else (List.range bufs.length).foldl (fun h d => readDev part offset size bufs d h) host

/-- Embedding of `copy(const std::vector<T>&, vex::vector<T>&)`:
`dv.write_data(0, dv.size(), hv.data(), blocking)`, where `dv.size()` is
`part.empty() ? 0 : part.back()`. -/
def copy_to_device {α : Type} (part : List Nat) (bufs : List (List α))
    (hv : List α) : List (List α) :=
  write_data part bufs 0 (part.getLastD 0) hv

/-- Embedding of `copy(const vex::vector<T>&, std::vector<T>&)`:
`dv.read_data(0, dv.size(), hv.data(), blocking)`. -/
def copy_to_host {α : Type} (part : List Nat) (bufs : List (List α))
    (hv : List α) : List α :=
  read_data part bufs 0 (part.getLastD 0) hv

/-- Widths of the partition's per-device ranges. -/
def widths : List Nat → List Nat
  | a :: b :: rest => (b - a) :: widths (b :: rest)
  | _ => []

/-- Well-formedness of a distributed vector as established by its
constructor: the partition has one more entry than there are devices, it
starts at 0 and is non-decreasing, and each device buffer holds exactly
its partition's width of elements. -/
def ValidVec {α : Type} (part : List Nat) (bufs : List (List α)) : Prop :=
  part.length = bufs.length + 1 ∧ part.getD 0 0 = 0 ∧
    List.Chain' (· ≤ ·) part ∧ bufs.map List.length = widths part

/-- A transfer command enqueued by `write_data` / `read_data`: the device
index, the offset inside the device buffer, the offset inside the host
array relative to `hostptr`, the element count, and the blocking flag
passed to the enqueue call. -/
structure Transfer where
  dev : Nat
  devOff : Nat
  hostOff : Nat
  len : Nat
  blocking : Bool
deriving DecidableEq

/-- The transfer command (if any) issued for device `d` by the
`write_data` / `read_data` loop: skip when the clipped range is empty,
otherwise enqueue non-blockingly (`CL_FALSE`) with local offset
`start - part[d]`, host offset `start - offset` and length
`stop - start`. -/
def devTransfer (part : List Nat) (offset size d : Nat) : Option Transfer :=
  let start := max offset (part.getD d 0)
  let stop := min (offset + size) (part.getD (d + 1) 0)
  if stop ≤ start then none
  else some ⟨d, start - part.getD d 0, start - offset, stop - start, false⟩

/-- The transfer commands enqueued by `vector::write_data` over `D`
devices (none at all when `size == 0`, because of the early return). -/
def write_transfers (part : List Nat) (D offset size : Nat) : List Transfer :=
  if size = 0 then []
  else (List.range D).filterMap (devTransfer part offset size)

/-- The devices whose events `vector::write_data` waits on: when
`blocking` is requested, exactly the devices whose clipped range is
non-empty; otherwise none. -/
def write_waits (part : List Nat) (D offset size : Nat) (blocking : Bool) : List Nat :=
  if size = 0 then []
  else if blocking then
    (List.range D).filter
      (fun d => max offset (part.getD d 0) < min (offset + size) (part.getD (d + 1) 0))
  else []

/-- The transfer commands enqueued by `vector::read_data`: the loop is
textually identical to the one of `write_data` (only the transfer
direction differs). -/
def read_transfers (part : List Nat) (D offset size : Nat) : List Transfer :=
  if size = 0 then []
  else (List.range D).filterMap (devTransfer part offset size)

/-- The devices whose events `vector::read_data` waits on. -/
def read_waits (part : List Nat) (D offset size : Nat) (blocking : Bool) : List Nat :=
  if size = 0 then []
  else if blocking then
    (List.range D).filter
      (fun d => max offset (part.getD d 0) < min (offset + size) (part.getD (d + 1) 0))
  else []

/-! ### Helper lemmas about indexed list access -/

theorem getD_of_lt {α : Type} (l : List α) (d : Nat) (x : α) (h : d < l.length) :
    l.getD d x = l[d] := by
  simp [List.getD_eq_getElem?_getD, List.getElem?_eq_getElem h]

theorem getLastD_eq_getD : ∀ (l : List Nat), l ≠ [] → ∀ (d : Nat),
    l.getLastD d = l.getD (l.length - 1) 0
  | [], h, _ => absurd rfl h
  | [a], _, d => rfl
  | a :: b :: r, _, d => by
    rw [List.getLastD_cons, getLastD_eq_getD (b :: r) (by simp) a]
    rfl

theorem widths_length : ∀ (l : List Nat), (widths l).length = l.length - 1
  | [] => rfl
  | [_] => rfl
  | _ :: b :: r => by
    rw [widths, List.length_cons, widths_length (b :: r)]
    rfl

theorem widths_getD : ∀ (l : List Nat) (d : Nat), d + 1 < l.length →
    (widths l).getD d 0 = l.getD (d + 1) 0 - l.getD d 0
  | [], d, h => by simp at h
  | [_], d, h => by simp at h
  | a :: b :: r, 0, _ => rfl
  | a :: b :: r, d + 1, h => by
    rw [widths, List.getD_cons_succ, widths_getD (b :: r) d (by simpa using h)]
    rfl

theorem chain'_getD_adj (l : List Nat) (hch : List.Chain' (· ≤ ·) l) (d : Nat)
    (hd : d + 1 < l.length) : l.getD d 0 ≤ l.getD (d + 1) 0 := by
  have h := List.chain'_iff_get.mp hch d (by omega)
  rw [getD_of_lt l d 0 (by omega), getD_of_lt l (d + 1) 0 hd]
  simpa using h

theorem chain'_getD_mono (l : List Nat) (hch : List.Chain' (· ≤ ·) l) :
    ∀ j, j < l.length → ∀ i, i ≤ j → l.getD i 0 ≤ l.getD j 0 := by
  intro j
  induction j with
  | zero =>
    intro _ i hi
    have hi0 : i = 0 := by omega
    subst hi0
    exact Nat.le_refl _
  | succ j ih =>
    intro hj i hi
    rcases Nat.lt_or_ge i (j + 1) with hlt | hge
    · have h1 : l.getD i 0 ≤ l.getD j 0 := ih (by omega) i (by omega)
      have h2 : l.getD j 0 ≤ l.getD (j + 1) 0 := chain'_getD_adj l hch j hj
      omega
    · have hij : i = j + 1 := by omega
      subst hij
      exact Nat.le_refl _

theorem chain'_getD_le_last (l : List Nat) (hch : List.Chain' (· ≤ ·) l) (i : Nat)
    (hi : i < l.length) : l.getD i 0 ≤ l.getLastD 0 := by
  have hne : l ≠ [] := by
    intro h
    subst h
    simp at hi
  rw [getLastD_eq_getD l hne 0]
  exact chain'_getD_mono l hch (l.length - 1) (by omega) i (by omega)

theorem updSeg_length {α : Type} (dst : List α) (pos : Nat) (seg : List α)
    (h : pos + seg.length ≤ dst.length) : (updSeg dst pos seg).length = dst.length := by
  simp only [updSeg, List.length_append, List.length_take, List.length_drop]
  omega

theorem updSeg_take {α : Type} (dst : List α) (pos : Nat) (seg : List α)
    (h : pos ≤ dst.length) :
    (updSeg dst pos seg).take (pos + seg.length) = dst.take pos ++ seg := by
  have hlen : (dst.take pos).length = pos := by
    simp [List.length_take]
    omega
  calc (updSeg dst pos seg).take (pos + seg.length)
      = (dst.take pos ++ (seg ++ dst.drop (pos + seg.length))).take
          ((dst.take pos).length + seg.length) := by
        rw [hlen, updSeg, List.append_assoc]
    _ = dst.take pos ++ (seg ++ dst.drop (pos + seg.length)).take (seg.length + 0) := by
        rw [List.take_append, Nat.add_zero]
    _ = dst.take pos ++ seg := by
        rw [List.take_append, List.take_zero, List.append_nil]

theorem valid_buf_length {α : Type} (part : List Nat) (bufs : List (List α))
    (hv : ValidVec part bufs) (d : Nat) (hd : d < bufs.length) :
    (bufs.getD d []).length = part.getD (d + 1) 0 - part.getD d 0 := by
  obtain ⟨hlen, _, _, hw⟩ := hv
  have h1 : (bufs.map List.length).getD d 0 = (widths part).getD d 0 := by rw [hw]
  rw [getD_of_lt (bufs.map List.length) d 0 (by simpa using hd), List.getElem_map] at h1
  rw [widths_getD part d (by omega)] at h1
  rw [getD_of_lt bufs d [] hd]
  exact h1

theorem copy_to_device_getD {α : Type} (part : List Nat) (bufs : List (List α))
    (host : List α) (hv : ValidVec part bufs) (hhost : host.length = part.getLastD 0)
    (d : Nat) (hd : d < bufs.length) :
    (copy_to_device part bufs host).getD d [] =
      (host.drop (part.getD d 0)).take (part.getD (d + 1) 0 - part.getD d 0) := by
  obtain ⟨hlen, h0, hch, hw⟩ := hv
  have hblen := valid_buf_length part bufs ⟨hlen, h0, hch, hw⟩ d hd
  have hle_last : part.getD (d + 1) 0 ≤ part.getLastD 0 :=
    chain'_getD_le_last part hch (d + 1) (by omega)
  have hadj : part.getD d 0 ≤ part.getD (d + 1) 0 := chain'_getD_adj part hch d (by omega)
  unfold copy_to_device write_data
  by_cases hn : part.getLastD 0 = 0
  · rw [if_pos hn]
    have hwidth : part.getD (d + 1) 0 - part.getD d 0 = 0 := by omega
    rw [hwidth, List.take_zero]
    exact List.length_eq_zero.mp (by omega)
  · rw [if_neg hn]
    have hmap : ((List.range bufs.length).map
        (fun d => writeDev part 0 (part.getLastD 0) host d (bufs.getD d []))).getD d [] =
        writeDev part 0 (part.getLastD 0) host d (bufs.getD d []) := by
      rw [getD_of_lt _ d [] (by simpa using hd), List.getElem_map, List.getElem_range]
    rw [hmap]
    simp only [writeDev]
    have hstart : max 0 (part.getD d 0) = part.getD d 0 := by omega
    have hstop : min (0 + part.getLastD 0) (part.getD (d + 1) 0) = part.getD (d + 1) 0 := by
      omega
    rw [hstart, hstop]
    by_cases hss : part.getD (d + 1) 0 ≤ part.getD d 0
    · rw [if_pos hss]
      have hwidth : part.getD (d + 1) 0 - part.getD d 0 = 0 := by omega
      rw [hwidth, List.take_zero]
      exact List.length_eq_zero.mp (by omega)
    · rw [if_neg hss]
      have hpos : part.getD d 0 - part.getD d 0 = 0 := by omega
      have hoff : part.getD d 0 - 0 = part.getD d 0 := by omega
      rw [hpos, hoff]
      unfold updSeg
      have hseg : ((host.drop (part.getD d 0)).take
          (part.getD (d + 1) 0 - part.getD d 0)).length =
          part.getD (d + 1) 0 - part.getD d 0 := by
        simp only [List.length_take, List.length_drop]
        omega
      rw [List.take_zero, List.nil_append, hseg, Nat.zero_add]
      have hdrop : (bufs.getD d []).drop (part.getD (d + 1) 0 - part.getD d 0) = [] :=
        List.drop_eq_nil_of_le (by omega)
      rw [hdrop, List.append_nil]

theorem read_fold_inv {α : Type} (part : List Nat) (B : List (List α)) (host : List α)
    (hlen : part.length = B.length + 1) (hch : List.Chain' (· ≤ ·) part)
    (hhost : host.length = part.getLastD 0)
    (hslice : ∀ d, d < B.length → B.getD d [] =
      (host.drop (part.getD d 0)).take (part.getD (d + 1) 0 - part.getD d 0)) :
    ∀ (k s : Nat) (acc : List α), s + k ≤ B.length → acc.length = host.length →
      acc.take (part.getD s 0) = host.take (part.getD s 0) →
      (((List.range' s k).foldl
          (fun hh d => readDev part 0 (part.getLastD 0) B d hh) acc).length =
        host.length ∧
      ((List.range' s k).foldl
          (fun hh d => readDev part 0 (part.getLastD 0) B d hh) acc).take
          (part.getD (s + k) 0) =
        host.take (part.getD (s + k) 0)) := by
  intro k
  induction k with
  | zero =>
    intro s acc _ hacc htake
    exact ⟨hacc, htake⟩
  | succ k ih =>
    intro s acc hs hacc htake
    rw [List.range'_succ, List.foldl_cons]
    have hs1 : s + 1 < part.length := by omega
    have hadj : part.getD s 0 ≤ part.getD (s + 1) 0 := chain'_getD_adj part hch s hs1
    have hlast : part.getD (s + 1) 0 ≤ part.getLastD 0 :=
      chain'_getD_le_last part hch (s + 1) hs1
    have hstep : (readDev part 0 (part.getLastD 0) B s acc).length = host.length ∧
        (readDev part 0 (part.getLastD 0) B s acc).take (part.getD (s + 1) 0) =
          host.take (part.getD (s + 1) 0) := by
      simp only [readDev]
      have hstart : max 0 (part.getD s 0) = part.getD s 0 := by omega
      have hstop : min (0 + part.getLastD 0) (part.getD (s + 1) 0) = part.getD (s + 1) 0 := by
        omega
      rw [hstart, hstop]
      by_cases hss : part.getD (s + 1) 0 ≤ part.getD s 0
      · rw [if_pos hss]
        have heq : part.getD (s + 1) 0 = part.getD s 0 := by omega
        rw [heq]
        exact ⟨hacc, htake⟩
      · rw [if_neg hss]
        have hBs := hslice s (by omega)
        have hpos : part.getD s 0 - part.getD s 0 = 0 := by omega
        have hoff : part.getD s 0 - 0 = part.getD s 0 := by omega
        rw [hpos, hoff, List.drop_zero]
        have hBlen : (B.getD s []).length = part.getD (s + 1) 0 - part.getD s 0 := by
          rw [hBs]
          simp only [List.length_take, List.length_drop]
          omega
        have htakeB : (B.getD s []).take (part.getD (s + 1) 0 - part.getD s 0) =
            B.getD s [] := by
          rw [← hBlen]
          exact List.take_length _
        rw [htakeB, hBs]
        have hsegl : ((host.drop (part.getD s 0)).take
            (part.getD (s + 1) 0 - part.getD s 0)).length =
            part.getD (s + 1) 0 - part.getD s 0 := by
          simp only [List.length_take, List.length_drop]
          omega
        constructor
        · rw [updSeg_length acc _ _ (by rw [hsegl]; omega)]
          exact hacc
        · have ht := updSeg_take acc (part.getD s 0)
            ((host.drop (part.getD s 0)).take (part.getD (s + 1) 0 - part.getD s 0))
            (by omega)
          rw [hsegl] at ht
          have hidx : part.getD s 0 + (part.getD (s + 1) 0 - part.getD s 0) =
              part.getD (s + 1) 0 := by omega
          rw [hidx] at ht
          rw [ht, htake]
          rw [← List.take_add]
          rw [hidx]
    obtain ⟨hstepl, hstept⟩ := hstep
    have hres := ih (s + 1) (readDev part 0 (part.getLastD 0) B s acc)
      (by omega) hstepl hstept
    rw [show s + (k + 1) = s + 1 + k by omega]
    exact hres

/-- C3: for a well-formed distributed vector and a host vector of matching
length, copying the host vector to the device buffers and reading them
back into any host array of the same length returns exactly the original
host vector: the per-device scatter of `write_data` composed with the
per-device gather of `read_data` is the identity. -/
theorem copy_roundtrip {α : Type} (part : List Nat) (bufs : List (List α))
    (host hostOut : List α) (hv : ValidVec part bufs)
    (hhost : host.length = part.getLastD 0) (hout : hostOut.length = part.getLastD 0) :
    copy_to_host part (copy_to_device part bufs host) hostOut = host := by
  obtain ⟨hlen, h0, hch, hw⟩ := hv
  have hBlen : (copy_to_device part bufs host).length = bufs.length := by
    unfold copy_to_device write_data
    split
    · rfl
    · simp
  have hslice : ∀ d, d < (copy_to_device part bufs host).length →
      (copy_to_device part bufs host).getD d [] =
        (host.drop (part.getD d 0)).take (part.getD (d + 1) 0 - part.getD d 0) := by
    intro d hd
    exact copy_to_device_getD part bufs host ⟨hlen, h0, hch, hw⟩ hhost d (by omega)
  unfold copy_to_host read_data
  by_cases hn : part.getLastD 0 = 0
  · rw [if_pos hn]
    have h1 : host = [] := List.length_eq_zero.mp (by omega)
    have h2 : hostOut = [] := List.length_eq_zero.mp (by omega)
    rw [h1, h2]
  · rw [if_neg hn]
    have hfold := read_fold_inv part (copy_to_device part bufs host) host
      (by omega) hch hhost hslice (copy_to_device part bufs host).length 0 hostOut
      (by omega) (by omega) (by rw [h0]; simp)
    obtain ⟨hfl, hft⟩ := hfold
    rw [List.range_eq_range']
    have hne : part ≠ [] := by
      intro hp
      rw [hp] at hlen
      simp at hlen
    have hlast : part.getD (0 + (copy_to_device part bufs host).length) 0 =
        part.getLastD 0 := by
      rw [Nat.zero_add, hBlen, getLastD_eq_getD part hne 0]
      congr 1
      omega
    rw [hlast] at hft
    set res := (List.range' 0 (copy_to_device part bufs host).length).foldl
      (fun hh d => readDev part 0 (part.getLastD 0) (copy_to_device part bufs host) d hh)
      hostOut with hres
    have h1 : res = res.take (part.getLastD 0) := by
      rw [show part.getLastD 0 = res.length by omega]
      exact (List.take_length res).symm
    rw [h1, hft, show part.getLastD 0 = host.length from hhost.symm, List.take_length]

theorem devTransfer_dev (part : List Nat) (offset size d : Nat) (t : Transfer)
    (h : devTransfer part offset size d = some t) : t.dev = d := by
  simp only [devTransfer] at h
  split at h
  · cases h
  · cases h
    rfl

theorem devTransfer_blocking (part : List Nat) (offset size d : Nat) (t : Transfer)
    (h : devTransfer part offset size d = some t) : t.blocking = false := by
  simp only [devTransfer] at h
  split at h
  · cases h
  · cases h
    rfl

theorem filterMap_devTransfer_filter (part : List Nat) (offset size : Nat) :
    ∀ (l : List Nat), l.Nodup → ∀ (d : Nat),
      (l.filterMap (devTransfer part offset size)).filter (fun t => t.dev == d) =
        if d ∈ l then (devTransfer part offset size d).toList else [] := by
  intro l
  induction l with
  | nil => intro _ d; simp
  | cons a l ih =>
    intro hnd d
    have hnd' : l.Nodup := (List.nodup_cons.mp hnd).2
    have hal : a ∉ l := (List.nodup_cons.mp hnd).1
    rw [List.filterMap_cons]
    cases hta : devTransfer part offset size a with
    | none =>
      rw [ih hnd' d]
      by_cases hda : d = a
      · subst hda
        simp [hal, hta]
      · simp [List.mem_cons, hda]
    | some t =>
      have htd : t.dev = a := devTransfer_dev part offset size a t hta
      rw [List.filter_cons]
      by_cases hda : d = a
      · subst hda
        rw [if_pos (by simp [htd])]
        rw [ih hnd' d, if_neg hal]
        simp [List.mem_cons, hta]
      · rw [if_neg (by simp [htd]; exact fun hc => hda hc.symm)]
        rw [ih hnd' d]
        simp [List.mem_cons, hda]

theorem write_transfers_blocking (part : List Nat) (D offset size : Nat) :
    ∀ t ∈ write_transfers part D offset size, t.blocking = false := by
  intro t ht
  unfold write_transfers at ht
  split at ht
  · cases ht
  · obtain ⟨d, _, hd⟩ := List.mem_filterMap.mp ht
    exact devTransfer_blocking part offset size d t hd

/-- C6: for every device `d < D`, the `write_data` loop issues exactly one
transfer command for `d` precisely when the global range
`[offset, offset + size)` meets `d`'s partition `[part[d], part[d+1])`:
the issued command covers exactly that intersection (as a set of global
indices, with consistent device-local and host offsets), every command is
enqueued non-blockingly, completion is waited on exactly for the
intersecting devices and only when blocking was requested, and
`read_data` issues the same commands and waits. -/
theorem transfer_commands_exact (part : List Nat) (D offset size d : Nat)
    (blocking : Bool) (hd : d < D) :
    (((write_transfers part D offset size).filter (fun t => t.dev == d)) ≠ [] ↔
      (Set.Ico offset (offset + size) ∩
        Set.Ico (part.getD d 0) (part.getD (d + 1) 0)).Nonempty) ∧
    ((write_transfers part D offset size).filter (fun t => t.dev == d)).length ≤ 1 ∧
    (∀ t ∈ (write_transfers part D offset size).filter (fun t => t.dev == d),
      Set.Ico (offset + t.hostOff) (offset + t.hostOff + t.len) =
        Set.Ico offset (offset + size) ∩
          Set.Ico (part.getD d 0) (part.getD (d + 1) 0) ∧
      offset + t.hostOff = part.getD d 0 + t.devOff) ∧
    (∀ t ∈ write_transfers part D offset size, t.blocking = false) ∧
    (d ∈ write_waits part D offset size blocking ↔
      blocking = true ∧
      (Set.Ico offset (offset + size) ∩
        Set.Ico (part.getD d 0) (part.getD (d + 1) 0)).Nonempty) ∧
    read_transfers part D offset size = write_transfers part D offset size ∧
    read_waits part D offset size blocking = write_waits part D offset size blocking := by
  have hico : Set.Ico offset (offset + size) ∩
      Set.Ico (part.getD d 0) (part.getD (d + 1) 0) =
      Set.Ico (max offset (part.getD d 0))
        (min (offset + size) (part.getD (d + 1) 0)) := Set.Ico_inter_Ico
  have hne : (Set.Ico offset (offset + size) ∩
      Set.Ico (part.getD d 0) (part.getD (d + 1) 0)).Nonempty ↔
      max offset (part.getD d 0) < min (offset + size) (part.getD (d + 1) 0) := by
    rw [hico, Set.nonempty_Ico]
  refine ⟨?_, ?_, ?_, write_transfers_blocking part D offset size, ?_, rfl, rfl⟩
  all_goals by_cases hsz : size = 0
  · subst hsz
    rw [hne]
    simp [write_transfers]
  · have hfil := filterMap_devTransfer_filter part offset size (List.range D)
      (List.nodup_range D) d
    rw [if_pos (List.mem_range.mpr hd)] at hfil
    unfold write_transfers
    rw [if_neg hsz, hfil, hne]
    simp only [devTransfer]
    split
    · next hss =>
      simp only [Option.toList]
      constructor
      · intro hc
        exact absurd rfl hc
      · intro hlt
        omega
    · next hss =>
      simp only [Option.toList]
      constructor
      · intro _
        omega
      · intro _
        simp
  · subst hsz
    simp [write_transfers]
  · have hfil := filterMap_devTransfer_filter part offset size (List.range D)
      (List.nodup_range D) d
    rw [if_pos (List.mem_range.mpr hd)] at hfil
    unfold write_transfers
    rw [if_neg hsz, hfil]
    cases devTransfer part offset size d <;> simp [Option.toList]
  · subst hsz
    intro t ht
    simp [write_transfers] at ht
  · have hfil := filterMap_devTransfer_filter part offset size (List.range D)
      (List.nodup_range D) d
    rw [if_pos (List.mem_range.mpr hd)] at hfil
    intro t ht
    unfold write_transfers at ht
    rw [if_neg hsz, hfil] at ht
    simp only [devTransfer] at ht
    split at ht
    · simp [Option.toList] at ht
    · next hss =>
      simp only [Option.toList, List.mem_singleton] at ht
      subst ht
      dsimp only
      constructor
      · rw [hico]
        have h2 : offset + (max offset (part.getD d 0) - offset) =
            max offset (part.getD d 0) := by omega
        have h3 : max offset (part.getD d 0) +
            (min (offset + size) (part.getD (d + 1) 0) -
              max offset (part.getD d 0)) =
            min (offset + size) (part.getD (d + 1) 0) := by omega
        rw [h2, h3]
      · omega
  · subst hsz
    rw [hne]
    simp [write_waits]
  · rw [hne]
    unfold write_waits
    rw [if_neg hsz]
    cases blocking with
    | false =>
      simp
    | true =>
      rw [if_pos rfl, List.mem_filter]
      simp [List.mem_range, hd]

/-- Witness for `transfer_commands_exact`: partition `[0, 2, 5]`, global
range `[1, 4)`, device 1 of 2, blocking requested. -/
theorem transfer_commands_exact_witness :
    ((1 : Nat) < 2) ∧
    ((((write_transfers [0, 2, 5] 2 1 3).filter (fun t => t.dev == 1)) ≠ [] ↔
      (Set.Ico 1 (1 + 3) ∩
        Set.Ico (([0, 2, 5] : List Nat).getD 1 0)
          (([0, 2, 5] : List Nat).getD (1 + 1) 0)).Nonempty) ∧
    (((write_transfers [0, 2, 5] 2 1 3).filter (fun t => t.dev == 1)).length ≤ 1) ∧
    (∀ t ∈ (write_transfers [0, 2, 5] 2 1 3).filter (fun t => t.dev == 1),
      Set.Ico (1 + t.hostOff) (1 + t.hostOff + t.len) =
        Set.Ico 1 (1 + 3) ∩
          Set.Ico (([0, 2, 5] : List Nat).getD 1 0)
            (([0, 2, 5] : List Nat).getD (1 + 1) 0) ∧
      1 + t.hostOff = ([0, 2, 5] : List Nat).getD 1 0 + t.devOff) ∧
    (∀ t ∈ write_transfers [0, 2, 5] 2 1 3, t.blocking = false) ∧
    ((1 : Nat) ∈ write_waits [0, 2, 5] 2 1 3 true ↔
      true = true ∧
      (Set.Ico 1 (1 + 3) ∩
        Set.Ico (([0, 2, 5] : List Nat).getD 1 0)
          (([0, 2, 5] : List Nat).getD (1 + 1) 0)).Nonempty) ∧
    read_transfers [0, 2, 5] 2 1 3 = write_transfers [0, 2, 5] 2 1 3 ∧
    read_waits [0, 2, 5] 2 1 3 true = write_waits [0, 2, 5] 2 1 3 true) :=
  ⟨by decide, transfer_commands_exact [0, 2, 5] 2 1 3 1 true (by decide)⟩

/-- Witness for `copy_roundtrip`: partition `[0, 2, 3]` over two devices,
host vector `[1, 2, 3]`, stale device buffers `[[9, 9], [7]]` and output
array `[4, 5, 6]`. -/
theorem copy_roundtrip_witness :
    (ValidVec [0, 2, 3] ([[9, 9], [7]] : List (List Nat)) ∧
      ([1, 2, 3] : List Nat).length = ([0, 2, 3] : List Nat).getLastD 0 ∧
      ([4, 5, 6] : List Nat).length = ([0, 2, 3] : List Nat).getLastD 0) ∧
    copy_to_host [0, 2, 3] (copy_to_device [0, 2, 3] [[9, 9], [7]] [1, 2, 3]) [4, 5, 6] =
      [1, 2, 3] :=
  ⟨⟨⟨rfl, rfl, by norm_num [List.chain'_cons], rfl⟩, rfl, rfl⟩,
    copy_roundtrip [0, 2, 3] [[9, 9], [7]] [1, 2, 3] [4, 5, 6]
      ⟨rfl, rfl, by norm_num [List.chain'_cons], rfl⟩ rfl rfl⟩

end VexCL
